import Mathlib

/-!
Verification of the concurrent batch-upload orchestrator in
`qiniu-upload-util` (`src/main.rs`) against its design document.

The embedding is shallow:
* `split_into_chunks` mirrors the Rust function of the same name
  (lines 21–29).  Rust's `slice::chunks` panics when the chunk size is
  zero, and the integer expression `list.len() + chunk_count - 1`
  panics (underflow) or divides by zero when `chunk_count` is zero, so
  the model returns `Option`, with `none` standing for a panic.
* Strings are modelled as lists of Unicode scalar values
  (`List Nat`), written with the helper `codes`; the path separator
  `'/'` is code 47, `'.'` is 46.  `to_lowercase` is modelled on the
  ASCII range, which is what every key the tool builds from paths and
  CLI arguments exercises.
* The worker loop and the join-and-sum aggregation (lines 201–287) are
  modelled with the upload client and the filesystem as oracles; a
  Rust `unwrap` panic is an `Except.error`.
-/

namespace QiniuUpload

/-! ## Work partitioner (`split_into_chunks`, main.rs lines 21–29) -/

/-- Fuel-indexed repeated `take`/`drop`, the meaning of Rust's
`slice::chunks(chunk_size)` followed by `collect`.  The fuel only makes
the recursion structural; `rustChunks` instantiates it with the length
of the list, which is enough fuel whenever `1 ≤ k` (each step consumes
at least one element), and lemma `chunksFuel_irrel` shows any
sufficient fuel gives the same value. -/
def chunksFuel {α : Type} : Nat → Nat → List α → List (List α)
  | _, _, [] => []
  | 0, _, l => [l]
  | fuel + 1, k, l => l.take k :: chunksFuel fuel k (l.drop k)

/-- Rust's `list.chunks(k).map(to_vec).collect()`: the list cut into
contiguous pieces of size `k`, the last piece possibly shorter.  Only
meaningful for `1 ≤ k`; Rust panics on `k = 0` and the caller below
guards that. -/
def rustChunks {α : Type} (k : Nat) (l : List α) : List (List α) :=
  chunksFuel l.length k l

/-- `split_into_chunks` from main.rs lines 21–29:
`chunk_size = (list.len() + chunk_count - 1) / chunk_count` followed by
`list.chunks(chunk_size)`.  `none` models the panic Rust raises when
`chunk_count` is `0` (arithmetic on unsigned ints) or when the computed
`chunk_size` is `0` (`slice::chunks`), which happens exactly on the
empty list. -/
def split_into_chunks {α : Type} (list : List α) (chunk_count : Nat) :
    Option (List (List α)) :=
  if chunk_count = 0 then none
  else if (list.length + chunk_count - 1) / chunk_count = 0 then none
  else some (rustChunks ((list.length + chunk_count - 1) / chunk_count) list)

theorem chunksFuel_nil {α : Type} (fuel k : Nat) :
    chunksFuel fuel k ([] : List α) = [] := by
  cases fuel <;> rfl

theorem chunksFuel_cons {α : Type} (fuel k : Nat) (a : α) (t : List α) :
    chunksFuel (fuel + 1) k (a :: t)
      = (a :: t).take k :: chunksFuel fuel k ((a :: t).drop k) := rfl

theorem chunksFuel_irrel {α : Type} (k : Nat) (hk : 1 ≤ k) :
    ∀ (n : Nat) (l : List α) (f₁ f₂ : Nat), l.length ≤ n → l.length ≤ f₁ →
      l.length ≤ f₂ → chunksFuel f₁ k l = chunksFuel f₂ k l := by
  intro n
  induction n with
  | zero =>
    intro l f₁ f₂ hn _ _
    have : l = [] := List.length_eq_zero.mp (Nat.le_zero.mp hn)
    subst this
    rw [chunksFuel_nil, chunksFuel_nil]
  | succ n ih =>
    intro l f₁ f₂ hn h1 h2
    cases l with
    | nil => rw [chunksFuel_nil, chunksFuel_nil]
    | cons a t =>
      simp only [List.length_cons] at hn h1 h2
      cases f₁ with
      | zero => omega
      | succ f₁ =>
        cases f₂ with
        | zero => omega
        | succ f₂ =>
          rw [chunksFuel_cons, chunksFuel_cons]
          congr 1
          apply ih <;> simp only [List.length_drop, List.length_cons] <;> omega

theorem rustChunks_nil {α : Type} (k : Nat) :
    rustChunks k ([] : List α) = [] := rfl

theorem rustChunks_cons {α : Type} {k : Nat} (hk : 1 ≤ k) (a : α) (t : List α) :
    rustChunks k (a :: t)
      = (a :: t).take k :: rustChunks k ((a :: t).drop k) := by
  show chunksFuel (a :: t).length k (a :: t) = _
  rw [show (a :: t).length = t.length + 1 from rfl, chunksFuel_cons]
  congr 1
  show chunksFuel t.length k ((a :: t).drop k)
    = chunksFuel ((a :: t).drop k).length k ((a :: t).drop k)
  apply chunksFuel_irrel k hk t.length <;>
    simp only [List.length_drop, List.length_cons] <;> omega

theorem rustChunks_ne_nil {α : Type} {k : Nat} (hk : 1 ≤ k) (a : α) (t : List α) :
    rustChunks k (a :: t) ≠ [] := by
  rw [rustChunks_cons hk]
  simp

theorem rustChunks_flatten {α : Type} {k : Nat} (hk : 1 ≤ k) :
    ∀ (n : Nat) (l : List α), l.length ≤ n → (rustChunks k l).flatten = l := by
  intro n
  induction n with
  | zero =>
    intro l hn
    have : l = [] := List.length_eq_zero.mp (Nat.le_zero.mp hn)
    subst this
    rw [rustChunks_nil]
    rfl
  | succ n ih =>
    intro l hn
    cases l with
    | nil => rw [rustChunks_nil]; rfl
    | cons a t =>
      simp only [List.length_cons] at hn
      rw [rustChunks_cons hk, List.flatten_cons,
        ih _ (by simp only [List.length_drop, List.length_cons]; omega),
        List.take_append_drop]

theorem rustChunks_length {α : Type} {k : Nat} (hk : 1 ≤ k) :
    ∀ (n : Nat) (l : List α), l.length ≤ n →
      (rustChunks k l).length = (l.length + k - 1) / k := by
  intro n
  induction n with
  | zero =>
    intro l hn
    have : l = [] := List.length_eq_zero.mp (Nat.le_zero.mp hn)
    subst this
    rw [rustChunks_nil]
    simp [Nat.div_eq_of_lt (show k - 1 < k by omega)]
  | succ n ih =>
    intro l hn
    cases l with
    | nil =>
      rw [rustChunks_nil]
      simp [Nat.div_eq_of_lt (show k - 1 < k by omega)]
    | cons a t =>
      simp only [List.length_cons] at hn
      have hdl : ((a :: t).drop k).length = t.length + 1 - k := by
        simp only [List.length_drop, List.length_cons]
      rw [rustChunks_cons hk, List.length_cons,
        ih _ (by simp only [List.length_drop, List.length_cons]; omega), hdl,
        show (a :: t).length = t.length + 1 from rfl]
      by_cases hbig : k ≤ t.length + 1
      · have h1 : t.length + 1 - k + k - 1 = t.length := by omega
        have h2 : t.length + 1 + k - 1 = t.length + k := by omega
        rw [h1, h2, Nat.add_div_right _ (show 0 < k by omega)]
      · have h1 : t.length + 1 - k + k - 1 < k := by omega
        rw [Nat.div_eq_of_lt h1]
        have h2 : t.length + 1 + k - 1 = t.length + k := by omega
        rw [h2]
        symm
        apply Nat.div_eq_of_lt_le <;> omega

theorem rustChunks_dropLast {α : Type} {k : Nat} (hk : 1 ≤ k) :
    ∀ (n : Nat) (l : List α), l.length ≤ n →
      ∀ c ∈ (rustChunks k l).dropLast, c.length = k := by
  intro n
  induction n with
  | zero =>
    intro l hn
    have : l = [] := List.length_eq_zero.mp (Nat.le_zero.mp hn)
    subst this
    rw [rustChunks_nil]
    intro c hc
    simp at hc
  | succ n ih =>
    intro l hn
    cases l with
    | nil =>
      rw [rustChunks_nil]
      intro c hc
      simp at hc
    | cons a t =>
      simp only [List.length_cons] at hn
      rw [rustChunks_cons hk]
      cases hdrop : (a :: t).drop k with
      | nil =>
        rw [rustChunks_nil]
        intro c hc
        simp at hc
      | cons b u =>
        have hdroplen : (b :: u).length = t.length + 1 - k := by
          rw [← hdrop]
          simp only [List.length_drop, List.length_cons]
        simp only [List.length_cons] at hdroplen
        have hne : rustChunks k (b :: u) ≠ [] := rustChunks_ne_nil hk b u
        rw [List.dropLast_cons_of_ne_nil hne]
        intro c hc
        rcases List.mem_cons.mp hc with h | h
        · subst h
          rw [List.length_take]
          simp only [List.length_cons]
          omega
        · exact ih (b :: u) (by simp only [List.length_cons]; omega) c h

theorem sum_map_length_const {α : Type} (k : Nat) :
    ∀ (L : List (List α)), (∀ c ∈ L, c.length = k) →
      (L.map List.length).sum = L.length * k := by
  intro L
  induction L with
  | nil => simp
  | cons c L ih =>
    intro h
    have hc : c.length = k := h c (by simp)
    have hrest := ih fun x hx => h x (by simp [hx])
    simp [hc, hrest]
    ring

/-- Convenience form of the concatenation lemma. -/
theorem rustChunks_flatten' {α : Type} {k : Nat} (hk : 1 ≤ k) (l : List α) :
    (rustChunks k l).flatten = l :=
  rustChunks_flatten hk l.length l (Nat.le_refl _)

/-- On a non-empty list with a positive chunk count, `split_into_chunks`
returns the `rustChunks` value. -/
theorem split_into_chunks_some {α : Type} (l : List α) (cc : Nat)
    (hne : l ≠ []) (hcc : 1 ≤ cc) :
    split_into_chunks l cc
      = some (rustChunks ((l.length + cc - 1) / cc) l) := by
  have hKpos : 0 < l.length := List.length_pos.mpr hne
  have hq1 : 1 ≤ (l.length + cc - 1) / cc := by
    rw [Nat.le_div_iff_mul_le (by omega)]
    omega
  unfold split_into_chunks
  rw [if_neg (by omega), if_neg (by omega)]

/-- What `split_into_chunks` returns on a non-empty list. -/
theorem split_into_chunks_eq {α : Type} (l : List α) (cc : Nat)
    (cs : List (List α)) (h : split_into_chunks l cc = some cs) :
    1 ≤ cc ∧ 1 ≤ (l.length + cc - 1) / cc ∧
      cs = rustChunks ((l.length + cc - 1) / cc) l := by
  unfold split_into_chunks at h
  by_cases h0 : cc = 0
  · rw [if_pos h0] at h
    exact absurd h (by simp)
  · rw [if_neg h0] at h
    by_cases h1 : (l.length + cc - 1) / cc = 0
    · rw [if_pos h1] at h
      exact absurd h (by simp)
    · rw [if_neg h1] at h
      exact ⟨Nat.pos_of_ne_zero h0, Nat.pos_of_ne_zero h1,
        (Option.some_inj.mp h).symm⟩

/-- C3: for every task list, concatenating the chunks returned by the
partitioner in order reproduces the original list exactly — every input
task appears in exactly one chunk exactly once (witnessed by the
multiplicity equation), none is skipped or duplicated, and relative
order is preserved across chunk boundaries (witnessed by the
concatenation equation). -/
theorem C3_partition_concat {α : Type} [DecidableEq α] (l : List α) (cc : Nat)
    (cs : List (List α)) (h : split_into_chunks l cc = some cs) :
    cs.flatten = l ∧ ∀ a : α, ((cs.map fun c => c.count a).sum = l.count a) := by
  obtain ⟨-, h1, rfl⟩ := split_into_chunks_eq l cc cs h
  have hflat := rustChunks_flatten' h1 l
  refine ⟨hflat, fun a => ?_⟩
  conv_rhs => rw [← hflat, List.count_flatten]

theorem rustChunks_last_length {α : Type} {k : Nat} (hk : 1 ≤ k) (l : List α)
    (hx : rustChunks k l ≠ []) :
    ((rustChunks k l).getLast hx).length
      = l.length - ((rustChunks k l).length - 1) * k := by
  have hflat := rustChunks_flatten' hk l
  have hsum : ((rustChunks k l).map List.length).sum = l.length := by
    rw [← List.length_flatten, hflat]
  have hsplit := List.dropLast_append_getLast hx
  have hsum2 : (((rustChunks k l).dropLast).map List.length).sum
      + ((rustChunks k l).getLast hx).length = l.length := by
    conv_rhs => rw [← hsum, ← hsplit]
    rw [List.map_append, List.sum_append]
    simp
  rw [sum_map_length_const _ _ (rustChunks_dropLast hk l.length l (Nat.le_refl _)),
    List.length_dropLast] at hsum2
  omega

theorem rustChunks_length_le {α : Type} {k : Nat} (hk : 1 ≤ k) (l : List α)
    (M : Nat) (hM : l.length ≤ M * k) : (rustChunks k l).length ≤ M := by
  rw [rustChunks_length hk l.length l (Nat.le_refl _)]
  have hmul : (M + 1) * k = M * k + k := by ring
  have hlt : l.length + k - 1 < (M + 1) * k := by omega
  exact Nat.lt_succ_iff.mp ((Nat.div_lt_iff_lt_mul (by omega)).mpr hlt)

/-- C4: for a non-empty task list partitioned with the bound 30 used by
`main`, the partitioner returns between `1` and `min K 30` chunks for
`K` input tasks; every chunk except possibly the last has exactly
`⌈K/30⌉` elements and the last has the remainder; and when `K ≤ 30` it
returns exactly `K` chunks of size `1`. -/
theorem C4_chunk_shape {α : Type} (l : List α) (cs : List (List α))
    (hne : l ≠ []) (h : split_into_chunks l 30 = some cs) :
    (1 ≤ cs.length ∧ cs.length ≤ min l.length 30) ∧
    (∀ c ∈ cs.dropLast, c.length = (l.length + 29) / 30) ∧
    (∀ hcs : cs ≠ [], (cs.getLast hcs).length
        = l.length - (cs.length - 1) * ((l.length + 29) / 30)) ∧
    (l.length ≤ 30 → cs.length = l.length ∧ ∀ c ∈ cs, c.length = 1) := by
  obtain ⟨-, hq0, hcs⟩ := split_into_chunks_eq l 30 cs h
  have e : l.length + 30 - 1 = l.length + 29 := by omega
  rw [e] at hq0 hcs
  subst hcs
  have hKpos : 0 < l.length := List.length_pos.mpr hne
  have hq1 : 1 ≤ (l.length + 29) / 30 := hq0
  have hq30 : l.length ≤ 30 * ((l.length + 29) / 30) := by omega
  have hcs_ne : rustChunks ((l.length + 29) / 30) l ≠ [] := by
    cases l with
    | nil => exact absurd rfl hne
    | cons a t => exact rustChunks_ne_nil hq1 a t
  have hn1 : 1 ≤ (rustChunks ((l.length + 29) / 30) l).length :=
    List.length_pos.mpr hcs_ne
  have hnK : (rustChunks ((l.length + 29) / 30) l).length ≤ l.length :=
    rustChunks_length_le hq1 l l.length (Nat.le_mul_of_pos_right _ hq1)
  have hn30 : (rustChunks ((l.length + 29) / 30) l).length ≤ 30 :=
    rustChunks_length_le hq1 l 30 hq30
  have hdropLast := rustChunks_dropLast hq1 l.length l (Nat.le_refl _)
  have hlast := rustChunks_last_length hq1 l
  refine ⟨⟨hn1, le_min hnK hn30⟩, hdropLast, hlast, ?_⟩
  intro hK30
  have hqe : (l.length + 29) / 30 = 1 := by omega
  have hlen : (rustChunks ((l.length + 29) / 30) l).length
      = (l.length + (l.length + 29) / 30 - 1) / ((l.length + 29) / 30) :=
    rustChunks_length hq1 l.length l (Nat.le_refl _)
  have hne2 : (rustChunks ((l.length + 29) / 30) l).length = l.length := by
    rw [hlen, hqe]
    omega
  refine ⟨hne2, ?_⟩
  intro c hc
  rw [← List.dropLast_append_getLast hcs_ne] at hc
  rcases List.mem_append.mp hc with hm | hm
  · rw [hdropLast c hm, hqe]
  · have hcl : c = (rustChunks ((l.length + 29) / 30) l).getLast hcs_ne := by
      simpa using hm
    rw [hcl, hlast hcs_ne, hne2, hqe]
    omega

theorem C4_chunk_shape_witness :
    ((1 ≤ ([[0], [1], [2], [3], [4]] : List (List Nat)).length ∧
        ([[0], [1], [2], [3], [4]] : List (List Nat)).length
          ≤ min ([0, 1, 2, 3, 4] : List Nat).length 30) ∧
      (∀ c ∈ ([[0], [1], [2], [3], [4]] : List (List Nat)).dropLast,
        c.length = (([0, 1, 2, 3, 4] : List Nat).length + 29) / 30) ∧
      (∀ hcs : ([[0], [1], [2], [3], [4]] : List (List Nat)) ≠ [],
        (([[0], [1], [2], [3], [4]] : List (List Nat)).getLast hcs).length
          = ([0, 1, 2, 3, 4] : List Nat).length
            - (([[0], [1], [2], [3], [4]] : List (List Nat)).length - 1)
              * ((([0, 1, 2, 3, 4] : List Nat).length + 29) / 30)) ∧
      (([0, 1, 2, 3, 4] : List Nat).length ≤ 30 →
        ([[0], [1], [2], [3], [4]] : List (List Nat)).length
            = ([0, 1, 2, 3, 4] : List Nat).length ∧
          ∀ c ∈ ([[0], [1], [2], [3], [4]] : List (List Nat)), c.length = 1)) :=
  C4_chunk_shape [0, 1, 2, 3, 4] [[0], [1], [2], [3], [4]] (by decide) (by decide)

/-- C10: `split_into_chunks` is total only for non-empty input — for a
non-empty list and `chunk_count ≥ 1` the computed chunk size is at
least `1` and at least one chunk is returned, while on the empty list
the computed chunk size is `0` and the call panics (modelled `none`),
making `K ≥ 1` a genuine precondition discharged by `main`'s
empty-directory guard. -/
theorem C10_empty_list_panics :
    (∀ (α : Type) (l : List α) (cc : Nat), l ≠ [] → 1 ≤ cc →
        1 ≤ (l.length + cc - 1) / cc ∧
        ∃ cs, split_into_chunks l cc = some cs ∧ 1 ≤ cs.length) ∧
    (∀ (α : Type) (cc : Nat), 1 ≤ cc →
        (([] : List α).length + cc - 1) / cc = 0 ∧
        split_into_chunks ([] : List α) cc = none) := by
  constructor
  · intro α l cc hne hcc
    have hKpos : 0 < l.length := List.length_pos.mpr hne
    have hq1 : 1 ≤ (l.length + cc - 1) / cc := by
      rw [Nat.le_div_iff_mul_le (by omega)]
      omega
    refine ⟨hq1, rustChunks ((l.length + cc - 1) / cc) l, ?_, ?_⟩
    · unfold split_into_chunks
      rw [if_neg (by omega), if_neg (by omega)]
    · apply List.length_pos.mpr
      cases l with
      | nil => exact absurd rfl hne
      | cons a t => exact rustChunks_ne_nil hq1 a t
  · intro α cc hcc
    have h0 : (([] : List α).length + cc - 1) / cc = 0 := by
      simp only [List.length_nil]
      exact Nat.div_eq_of_lt (by omega)
    refine ⟨h0, ?_⟩
    unfold split_into_chunks
    rw [if_neg (by omega), if_pos h0]

theorem C10_empty_list_panics_witness :
    (1 ≤ (([9, 9, 9] : List Nat).length + 3 - 1) / 3 ∧
      ∃ cs, split_into_chunks ([9, 9, 9] : List Nat) 3 = some cs ∧
        1 ≤ cs.length) ∧
    ((([] : List Nat).length + 3 - 1) / 3 = 0 ∧
      split_into_chunks ([] : List Nat) 3 = none) :=
  ⟨C10_empty_list_panics.1 Nat [9, 9, 9] 3 (by decide) (by decide),
    C10_empty_list_panics.2 Nat 3 (by decide)⟩

theorem C3_partition_concat_witness :
    ([[1, 2], [3]] : List (List Nat)).flatten = [1, 2, 3] ∧
      ∀ a : Nat, ((([[1, 2], [3]] : List (List Nat)).map fun c => c.count a).sum
        = ([1, 2, 3] : List Nat).count a) :=
  C3_partition_concat [1, 2, 3] 2 [[1, 2], [3]] (by decide)

/-! ## Key deriver (main.rs lines 204–218 and 304–312)

Strings are modelled as their lists of Unicode scalar values: `47` is
`'/'`, `46` is `'.'`, `65`–`90` are `'A'`–`'Z'`. -/

/-- Scalar values of a string literal, for concrete inputs. -/
def codes (s : String) : List Nat := s.data.map Char.toNat

/-- Lower-casing of one scalar on the ASCII range, the model of Rust
`str::to_lowercase` on the key material this tool builds out of paths
and CLI arguments. -/
def lowerCode (n : Nat) : Nat := if 65 ≤ n ∧ n ≤ 90 then n + 32 else n

/-- Rust `str::replace("//", "/")`: one left-to-right pass replacing
each non-overlapping occurrence of two separators by one. -/
def collapse : List Nat → List Nat
  | c :: d :: rest =>
    if c = 47 ∧ d = 47 then 47 :: collapse rest else c :: collapse (d :: rest)
  | l => l

/-- The post-processing `.replace("//", "/").to_lowercase()` that the
directory branch applies to every key (main.rs lines 213 and 216–217). -/
def postProcess (l : List Nat) : List Nat := (collapse l).map lowerCode

/-- Rust `dest_dir.strip_prefix("/").unwrap_or(dest_dir)` (main.rs
line 207): drop one leading separator when present. -/
def stripLeadSlash : List Nat → List Nat
  | 47 :: rest => rest
  | l => l

/-- Rust `dest_dir.strip_suffix("/").unwrap_or(dest_dir)` (main.rs
line 208): drop one trailing separator when present. -/
def stripTrailSlash (l : List Nat) : List Nat :=
  if l.getLast? = some 47 then l.dropLast else l

/-- Rust `object_name.strip_prefix(&file_name).unwrap_or(&object_name)`
(main.rs line 211). -/
def dropPre (p s : List Nat) : List Nat :=
  if p.isPrefixOf s then s.drop p.length else s

/-- Rust `Path::file_name` for the paths `main` feeds it: the last
`/`-separated component, ignoring trailing separators. -/
def rustFileNameOf (p : List Nat) : List Nat :=
  ((p.reverse.dropWhile fun c => c == 47).takeWhile fun c => !(c == 47)).reverse

/-- Rust `Path::file_stem` (main.rs line 185): the file name with the
extension after its final `.` removed; a leading `.` does not start an
extension. -/
def rustFileStem (p : List Nat) : List Nat :=
  match rustFileNameOf p with
  | [] => []
  | c :: rest =>
    if rest.contains 46 then
      c :: ((rest.reverse.dropWhile fun d => !(d == 46)).drop 1).reverse
    else c :: rest

/-- Directory-mode object-key derivation (main.rs lines 205–218):
`item` is the discovered file's path, `fileName` the root directory's
path (`file_path.to_str()`), `dirName` what `main` computed as
`file_path.file_stem()`, and `destDir` the optional `--object-name`
destination prefix (`key_name`). -/
def deriveKeyDir (destDir : Option (List Nat)) (dirName fileName item : List Nat) :
    List Nat :=
  match destDir with
  | some d =>
    postProcess (stripTrailSlash (stripLeadSlash d) ++ 47 :: dirName
      ++ 47 :: dropPre fileName item)
  | none => postProcess (codes (r"uploads/") ++ item)

/-- Single-file-mode object-key derivation (main.rs lines 304–312): an
explicit `--object-name` is used verbatim; otherwise the key defaults
to `uploads/<basename>`.  No separator collapsing or lower-casing
happens in this mode. -/
def deriveKeySingle (objectName : Option (List Nat)) (base : List Nat) : List Nat :=
  match objectName with
  | some name => name
  | none => codes (r"uploads/") ++ base

/-- Every scalar of the string is fixed by lower-casing. -/
def allLower (l : List Nat) : Bool := l.all fun c => lowerCode c == c

/-- The string contains two adjacent separators. -/
def hasDouble : List Nat → Bool
  | c :: d :: rest => (c == 47 && d == 47) || hasDouble (d :: rest)
  | _ => false

/-- The string contains three adjacent separators. -/
def hasTriple : List Nat → Bool
  | c :: d :: e :: rest => (c == 47 && d == 47 && e == 47) || hasTriple (d :: e :: rest)
  | _ => false

theorem collapse_nil : collapse [] = [] := rfl

theorem collapse_one (c : Nat) : collapse [c] = [c] := rfl

theorem collapse_cons₂ (c d : Nat) (rest : List Nat) :
    collapse (c :: d :: rest)
      = if c = 47 ∧ d = 47 then 47 :: collapse rest
        else c :: collapse (d :: rest) := rfl

theorem hasDouble_cons₂ (c d : Nat) (rest : List Nat) :
    hasDouble (c :: d :: rest)
      = ((c == 47 && d == 47) || hasDouble (d :: rest)) := rfl

theorem hasTriple_cons₃ (c d e : Nat) (rest : List Nat) :
    hasTriple (c :: d :: e :: rest)
      = ((c == 47 && d == 47 && e == 47) || hasTriple (d :: e :: rest)) := rfl

theorem lowerCode_idem (n : Nat) : lowerCode (lowerCode n) = lowerCode n := by
  by_cases hA : 65 ≤ n ∧ n ≤ 90
  · have h1 : lowerCode n = n + 32 := by rw [lowerCode, if_pos hA]
    rw [h1, lowerCode, if_neg (by omega)]
  · have h1 : lowerCode n = n := by rw [lowerCode, if_neg hA]
    rw [h1, h1]

theorem lowerCode_eq_slash (n : Nat) : lowerCode n = 47 ↔ n = 47 := by
  unfold lowerCode
  split <;> omega

theorem allLower_map_lowerCode (l : List Nat) :
    allLower (l.map lowerCode) = true := by
  rw [allLower, List.all_eq_true]
  intro c hc
  rw [List.mem_map] at hc
  obtain ⟨a, -, rfl⟩ := hc
  simp [lowerCode_idem]

theorem collapse_of_not_hasDouble :
    ∀ l : List Nat, hasDouble l = false → collapse l = l := by
  intro l
  induction l with
  | nil => intro _; rfl
  | cons c rest ih =>
    intro h
    cases rest with
    | nil => rfl
    | cons d t =>
      rw [hasDouble_cons₂] at h
      simp only [Bool.or_eq_false_iff, Bool.and_eq_false_iff, beq_eq_false_iff_ne] at h
      have h1 : ¬(c = 47 ∧ d = 47) := by
        rcases h.1 with h' | h' <;> intro hcd <;> exact h' (by omega)
      rw [collapse_cons₂, if_neg h1, ih (by
        rcases h with ⟨-, h2⟩
        exact h2)]

theorem collapse_head? : ∀ l : List Nat, (collapse l).head? = l.head? := by
  intro l
  cases l with
  | nil => rfl
  | cons c rest =>
    cases rest with
    | nil => rfl
    | cons d t =>
      rw [collapse_cons₂]
      split
      next h => rw [h.1]; rfl
      next => rfl

theorem hasTriple_tail :
    ∀ (c : Nat) (rest : List Nat), hasTriple (c :: rest) = false →
      hasTriple rest = false := by
  intro c rest h
  cases rest with
  | nil => rfl
  | cons d t =>
    cases t with
    | nil => rfl
    | cons e u =>
      rw [hasTriple_cons₃] at h
      simp only [Bool.or_eq_false_iff] at h
      exact h.2

theorem hasDouble_collapse :
    ∀ (n : Nat) (l : List Nat), l.length ≤ n → hasTriple l = false →
      hasDouble (collapse l) = false := by
  intro n
  induction n with
  | zero =>
    intro l hlen _
    have : l = [] := List.length_eq_zero.mp (Nat.le_zero.mp hlen)
    subst this
    rfl
  | succ n ih =>
    intro l hlen htr
    cases l with
    | nil => rfl
    | cons c rest =>
      cases rest with
      | nil => rfl
      | cons d t =>
        simp only [List.length_cons] at hlen
        rw [collapse_cons₂]
        by_cases hcd : c = 47 ∧ d = 47
        · rw [if_pos hcd]
          have ht_head : t.head? ≠ some 47 := by
            cases t with
            | nil => simp
            | cons e u =>
              intro he
              simp only [List.head?_cons, Option.some_inj] at he
              rw [hcd.1, hcd.2, he, hasTriple_cons₃] at htr
              simp at htr
          have htr_t : hasTriple t = false :=
            hasTriple_tail d t (hasTriple_tail c (d :: t) htr)
          cases hct : collapse t with
          | nil => rfl
          | cons e u =>
            have he : e ≠ 47 := by
              intro he47
              apply ht_head
              rw [← collapse_head? t, hct, he47]
              rfl
            rw [hasDouble_cons₂]
            have hrec : hasDouble (e :: u) = false := by
              rw [← hct]
              exact ih t (by omega) htr_t
            simp [he, hrec]
        · rw [if_neg hcd]
          have hrec : hasDouble (collapse (d :: t)) = false :=
            ih (d :: t) (by simp only [List.length_cons]; omega)
              (hasTriple_tail c (d :: t) htr)
          cases hcd2 : collapse (d :: t) with
          | nil => rfl
          | cons e u =>
            have he : e = d := by
              have h := collapse_head? (d :: t)
              rw [hcd2] at h
              simp only [List.head?_cons, Option.some_inj] at h
              exact h
            rw [hasDouble_cons₂]
            rw [hcd2] at hrec
            subst he
            have hne : ¬(c = 47 ∧ e = 47) := hcd
            simp only [Bool.or_eq_false_iff, Bool.and_eq_false_iff,
              beq_eq_false_iff_ne]
            constructor
            · by_cases hc47 : c = 47
              · right
                intro he47
                exact hne ⟨hc47, he47⟩
              · left
                exact hc47
            · exact hrec

theorem hasDouble_map_lowerCode :
    ∀ l : List Nat, hasDouble (l.map lowerCode) = hasDouble l := by
  intro l
  induction l with
  | nil => rfl
  | cons c rest ih =>
    cases rest with
    | nil => rfl
    | cons d t =>
      rw [List.map_cons, List.map_cons, hasDouble_cons₂, hasDouble_cons₂,
        ← List.map_cons, ih]
      have h1 : (lowerCode c == 47) = (c == 47) := by
        by_cases h : c = 47
        · rw [h]
          rfl
        · have : lowerCode c ≠ 47 := fun hl => h ((lowerCode_eq_slash c).mp hl)
          simp [h, this]
      have h2 : (lowerCode d == 47) = (d == 47) := by
        by_cases h : d = 47
        · rw [h]
          rfl
        · have : lowerCode d ≠ 47 := fun hl => h ((lowerCode_eq_slash d).mp hl)
          simp [h, this]
      rw [h1, h2]

theorem isPrefixOf_append (p s : List Nat) : p.isPrefixOf (p ++ s) = true := by
  induction p with
  | nil => simp [List.isPrefixOf]
  | cons a t ih => simp [List.isPrefixOf, ih]

theorem dropPre_append (p s : List Nat) : dropPre p (p ++ s) = s := by
  rw [dropPre, if_pos (isPrefixOf_append p s), List.drop_left]

theorem collapse_append_left :
    ∀ (Y z : List Nat), hasDouble Y = false → Y.getLast? ≠ some 47 →
      collapse (Y ++ z) = Y ++ collapse z := by
  intro Y
  induction Y with
  | nil => intro z _ _; rfl
  | cons c Y' ih =>
    intro z hd hl
    cases Y' with
    | nil =>
      have hc : c ≠ 47 := by
        intro h
        exact hl (by rw [h]; rfl)
      cases z with
      | nil => rfl
      | cons e u =>
        rw [List.cons_append, List.nil_append, collapse_cons₂,
          if_neg (fun h => hc h.1)]
        rfl
    | cons c' Y'' =>
      have hcc : ¬(c = 47 ∧ c' = 47) := by
        intro hboth
        rw [hasDouble_cons₂, hboth.1, hboth.2] at hd
        simp at hd
      have hd' : hasDouble (c' :: Y'') = false := by
        rw [hasDouble_cons₂] at hd
        simp only [Bool.or_eq_false_iff] at hd
        exact hd.2
      have hl' : (c' :: Y'').getLast? ≠ some 47 := by
        rw [List.getLast?_cons_cons] at hl
        exact hl
      show collapse (c :: (c' :: Y'' ++ z)) = c :: (c' :: Y'' ++ collapse z)
      rw [show (c' :: Y'') ++ z = c' :: (Y'' ++ z) from rfl] at *
      rw [collapse_cons₂, if_neg hcc, ← List.cons_append, ih z hd' hl']

/-- Exhaustive separator collapsing (the fixpoint of one-pass
replacement), used only to state the claims' original wording
"doubled separators collapsed". -/
def collapseAllF : Nat → List Nat → List Nat
  | 0, l => l
  | _, [] => []
  | _ + 1, [c] => [c]
  | fuel + 1, c :: d :: rest =>
    if c = 47 ∧ d = 47 then collapseAllF fuel (47 :: rest)
    else c :: collapseAllF fuel (d :: rest)

/-- Exhaustive separator collapsing; the fuel makes it structural and
the length is always enough, each step dropping one scalar. -/
def collapseAll (l : List Nat) : List Nat := collapseAllF l.length l

/-- Directory-mode key exactly as claim C7 words it: the destination
prefix with leading and trailing separator stripped, a separator, the
root's last path component, a separator, the file's path relative to
the root, with doubled separators collapsed and the key lower-cased. -/
def claimKeyC7 (d R f : List Nat) : List Nat :=
  (collapseAll (stripTrailSlash (stripLeadSlash d) ++ 47 :: rustFileNameOf R
    ++ 47 :: stripLeadSlash (dropPre R f))).map lowerCode

/-- Directory-mode key as the amended claim C7 words it: the namespace
component is the root's file stem (its last path component with the
extension after the final dot removed), and one replacement pass
collapses the doubled separator that concatenation introduces. -/
def claimKeyC7Amended (d R rel : List Nat) : List Nat :=
  (collapse (stripTrailSlash (stripLeadSlash d) ++ 47 :: rustFileStem R
    ++ 47 :: rel)).map lowerCode

/-- C6 as stated is false: in single-file mode an explicit object name
is used verbatim — no lower-casing and no separator collapsing — so
the key `A//B` survives untouched. -/
theorem C6_counterexample :
    deriveKeySingle (some (codes (r"A//B"))) (codes (r"photo.jpg"))
        = codes (r"A//B") ∧
      allLower (codes (r"A//B")) = false ∧
      hasDouble (codes (r"A//B")) = true := by decide

/-- C6 (amended): every directory-mode key is entirely lower-cased,
the post-processing being applied in both directory-mode branches
(with and without a destination prefix); single-file-mode keys are
used verbatim (explicit name) or default to `uploads/<basename>` with
no post-processing, and the separator collapse is a single replacement
pass rather than a guarantee that no doubled separator remains. -/
theorem C6_dir_keys_lowercased (destDir : Option (List Nat))
    (dirName fileName item : List Nat) :
    allLower (deriveKeyDir destDir dirName fileName item) = true := by
  cases destDir with
  | some d => exact allLower_map_lowerCode _
  | none => exact allLower_map_lowerCode _

/-- C7 as stated is false: the code namespaces directory uploads by
`file_stem`, which strips the extension from the root directory's
name, so for root `/data/photos.bak` the key namespace is `photos`,
not the last path component `photos.bak` the claim requires. -/
theorem C7_counterexample :
    deriveKeyDir (some (codes (r"Backups")))
        (rustFileStem (codes (r"/data/photos.bak")))
        (codes (r"/data/photos.bak")) (codes (r"/data/photos.bak/A.JPG"))
      ≠ claimKeyC7 (codes (r"Backups")) (codes (r"/data/photos.bak"))
        (codes (r"/data/photos.bak/A.JPG")) := by decide

/-- C7 (amended): in directory mode with destination prefix `d`, for a
file `R ++ "/" ++ rel` under the root `R`, the derived key is `d` with
one leading and one trailing separator stripped, then `/`, then the
root's file stem (its last path component with any extension after the
final dot removed), then `/`, then `rel`, with the doubled separator
introduced by concatenation collapsed by one replacement pass and the
whole key lower-cased — provided the stripped prefix and stem contain
no doubled separator of their own, the stem does not end in a
separator, and `rel` does not begin with one. -/
theorem C7_dir_key_formula (d R rel : List Nat)
    (hY : hasDouble (stripTrailSlash (stripLeadSlash d)
      ++ 47 :: rustFileStem R) = false)
    (hYlast : (stripTrailSlash (stripLeadSlash d)
      ++ 47 :: rustFileStem R).getLast? ≠ some 47)
    (hrel : rel.head? ≠ some 47) :
    deriveKeyDir (some d) (rustFileStem R) R (R ++ 47 :: rel)
      = claimKeyC7Amended d R rel := by
  show postProcess (stripTrailSlash (stripLeadSlash d) ++ 47 :: rustFileStem R
      ++ 47 :: dropPre R (R ++ 47 :: rel)) = _
  rw [dropPre_append, claimKeyC7Amended, postProcess]
  have e1 : stripTrailSlash (stripLeadSlash d) ++ 47 :: rustFileStem R
      ++ 47 :: 47 :: rel
      = (stripTrailSlash (stripLeadSlash d) ++ 47 :: rustFileStem R)
        ++ 47 :: 47 :: rel := by
    simp [List.append_assoc]
  have e2 : stripTrailSlash (stripLeadSlash d) ++ 47 :: rustFileStem R
      ++ 47 :: rel
      = (stripTrailSlash (stripLeadSlash d) ++ 47 :: rustFileStem R)
        ++ 47 :: rel := by
    simp [List.append_assoc]
  rw [e1, e2, collapse_append_left _ _ hY hYlast,
    collapse_append_left _ _ hY hYlast]
  have e3 : collapse (47 :: 47 :: rel) = 47 :: collapse rel := by
    rw [collapse_cons₂, if_pos ⟨rfl, rfl⟩]
  have e4 : collapse (47 :: rel) = 47 :: collapse rel := by
    cases rel with
    | nil => rfl
    | cons e u =>
      rw [collapse_cons₂, if_neg fun h => hrel (by rw [h.2]; rfl)]
  rw [e3, e4]

theorem C7_dir_key_formula_witness :
    deriveKeyDir (some (codes (r"/Backups/")))
        (rustFileStem (codes (r"/home/Photos"))) (codes (r"/home/Photos"))
        (codes (r"/home/Photos") ++ 47 :: codes (r"x.JPG"))
      = claimKeyC7Amended (codes (r"/Backups/")) (codes (r"/home/Photos"))
        (codes (r"x.JPG")) :=
  C7_dir_key_formula (codes (r"/Backups/")) (codes (r"/home/Photos"))
    (codes (r"x.JPG")) (by decide) (by decide) (by decide)

/-- Scenario C of the spec, checked concretely: root `Photos` with
destination prefix `/Backups/` puts files under `backups/photos/`. -/
theorem scenarioC_key :
    deriveKeyDir (some (codes (r"/Backups/")))
        (rustFileStem (codes (r"/home/Photos"))) (codes (r"/home/Photos"))
        (codes (r"/home/Photos/x.JPG"))
      = codes (r"backups/photos/x.jpg") := by decide

/-- C8 as stated is false: one replacement pass is not idempotent on a
run of three separators — `a///b` post-processes to `a//b`, and a
second pass shortens it again to `a/b`. -/
theorem C8_counterexample :
    postProcess (postProcess (codes (r"a///b")))
      ≠ postProcess (codes (r"a///b")) := by decide

/-- C8 (amended): the post-processing (one separator-replacement pass,
then lower-casing) is idempotent on every string with no run of three
or more consecutive separators; on such runs a second application
collapses further. -/
theorem C8_postProcess_idem (l : List Nat) (h : hasTriple l = false) :
    postProcess (postProcess l) = postProcess l := by
  rw [postProcess, postProcess]
  have h1 : hasDouble (collapse l) = false :=
    hasDouble_collapse l.length l (Nat.le_refl _) h
  have h2 : hasDouble ((collapse l).map lowerCode) = false := by
    rw [hasDouble_map_lowerCode]
    exact h1
  rw [collapse_of_not_hasDouble _ h2, List.map_map]
  exact List.map_congr_left fun a _ => lowerCode_idem a

theorem C8_postProcess_idem_witness :
    postProcess (postProcess (codes (r"A//b.JPG")))
      = postProcess (codes (r"A//b.JPG")) :=
  C8_postProcess_idem (codes (r"A//b.JPG")) (by decide)

/-! ## Upload workers and aggregation (main.rs lines 174–295) -/

/-- Per-file outcome as reported by a worker (main.rs lines 258–275):
success, or failure with the error's textual reason. -/
inductive UploadOutcome where
  | success (item objectName : List Nat)
  | failure (item objectName : List Nat) (reason : List Nat)
deriving DecidableEq

/-- The upload call succeeded. -/
def upOk (r : Except (List Nat) Unit) : Bool :=
  match r with
  | .ok _ => true
  | .error _ => false

/-- One worker's sequential loop over its chunk (main.rs lines
201–277).  `openF` models `fs::File::open` plus `metadata()` — the size
on success, or the I/O error whose `unwrap` panics the task — `upF`
the external client's `part_upload_file` call, and `keyOf` the key
derivation.  `Except.error` models a panic of the spawned task: open
and metadata failures are `unwrap`ped and abort the worker, while an
upload error only increments the local failure counter and the loop
continues with the next item.  The value is the outcome trace together
with the `(success, fail)` pair the task returns. -/
def runWorker (openF : List Nat → Except (List Nat) Nat)
    (upF : List Nat → Except (List Nat) Unit)
    (keyOf : List Nat → List Nat) :
    List (List Nat) → Except (List Nat) (List UploadOutcome × Nat × Nat)
  | [] => .ok ([], 0, 0)
  | item :: rest =>
    match openF item with
    | .error e => .error e
    | .ok _size =>
      match upF item with
      | .ok _ =>
        match runWorker openF upF keyOf rest with
        | .error e => .error e
        | .ok (outs, s, f) =>
          .ok (.success item (keyOf item) :: outs, s + 1, f)
      | .error e =>
        match runWorker openF upF keyOf rest with
        | .error e2 => .error e2
        | .ok (outs, s, f) =>
          .ok (.failure item (keyOf item) e :: outs, s, f + 1)

/-- The join-and-sum loop of `main` (lines 281–287): worker handles
are awaited in order and `unwrap`ped — a worker panic panics `main` —
and the per-chunk `(success, fail)` pairs are summed. -/
def runBatch (openF : List Nat → Except (List Nat) Nat)
    (upF : List Nat → Except (List Nat) Unit)
    (keyOf : List Nat → List Nat) :
    List (List (List Nat)) → Except (List Nat) (Nat × Nat)
  | [] => .ok (0, 0)
  | chunk :: rest =>
    match runWorker openF upF keyOf chunk with
    | .error e => .error e
    | .ok (_, s, f) =>
      match runBatch openF upF keyOf rest with
      | .error e => .error e
      | .ok (s2, f2) => .ok (s + s2, f + f2)

/-- Observable end state of a directory upload. -/
inductive BatchResult where
  /-- The empty-directory report followed by `exit(1)` (lines 177–180). -/
  | emptyDir
  /-- A panic reached `main` (an `unwrap` in a worker or at the join). -/
  | panicked (msg : List Nat)
  /-- Normal completion with the printed tally (lines 288–294). -/
  | completed (succeeded failed : Nat)
deriving DecidableEq

/-- The directory branch of `main` (lines 175–295): guard against an
empty enumeration, partition into at most 30 chunks, derive each key
with `file_stem` of the root as namespace, run the workers, then
join-and-sum.  `files` is what `walk_dir` returned, `filePath` the
root path and `destDir` the optional `--object-name`. -/
def runDirUpload (openF : List Nat → Except (List Nat) Nat)
    (upF : List Nat → Except (List Nat) Unit)
    (destDir : Option (List Nat)) (filePath : List Nat)
    (files : List (List Nat)) : BatchResult :=
  if files.isEmpty then .emptyDir
  else
    match split_into_chunks files 30 with
    | none => .panicked []
    | some chunks =>
      match runBatch openF upF
          (fun item => deriveKeyDir destDir (rustFileStem filePath) filePath item)
          chunks with
      | .error e => .panicked e
      | .ok (s, f) => .completed s f

theorem runWorker_ok_total (openF : List Nat → Except (List Nat) Nat)
    (upF : List Nat → Except (List Nat) Unit) (keyOf : List Nat → List Nat) :
    ∀ (items : List (List Nat)) outs s f,
      runWorker openF upF keyOf items = .ok (outs, s, f) →
      s + f = items.length ∧ outs.length = items.length := by
  intro items
  induction items with
  | nil =>
    intro outs s f h
    simp only [runWorker, Except.ok.injEq, Prod.mk.injEq] at h
    obtain ⟨h1, h2, h3⟩ := h
    subst h1; subst h2; subst h3
    simp
  | cons item rest ih =>
    intro outs s f h
    simp only [runWorker] at h
    cases hopen : openF item with
    | error e => rw [hopen] at h; exact absurd h (by simp)
    | ok n =>
      rw [hopen] at h
      cases hup : upF item with
      | ok u =>
        rw [hup] at h
        cases hrec : runWorker openF upF keyOf rest with
        | error e => rw [hrec] at h; exact absurd h (by simp)
        | ok triple =>
          obtain ⟨outs0, s0, f0⟩ := triple
          rw [hrec] at h
          simp only [Except.ok.injEq, Prod.mk.injEq] at h
          obtain ⟨h1, h2, h3⟩ := h
          subst h1; subst h2; subst h3
          obtain ⟨ha, hb⟩ := ih outs0 s0 f0 hrec
          simp only [List.length_cons]
          omega
      | error e0 =>
        rw [hup] at h
        cases hrec : runWorker openF upF keyOf rest with
        | error e => rw [hrec] at h; exact absurd h (by simp)
        | ok triple =>
          obtain ⟨outs0, s0, f0⟩ := triple
          rw [hrec] at h
          simp only [Except.ok.injEq, Prod.mk.injEq] at h
          obtain ⟨h1, h2, h3⟩ := h
          subst h1; subst h2; subst h3
          obtain ⟨ha, hb⟩ := ih outs0 s0 f0 hrec
          simp only [List.length_cons]
          omega

theorem runWorker_of_opens_ok (openF : List Nat → Except (List Nat) Nat)
    (upF : List Nat → Except (List Nat) Unit) (keyOf : List Nat → List Nat) :
    ∀ items : List (List Nat), (∀ it ∈ items, ∃ n, openF it = .ok n) →
      ∃ outs, runWorker openF upF keyOf items
          = .ok (outs, items.countP fun it => upOk (upF it),
              items.countP fun it => !upOk (upF it)) ∧
        outs.length = items.length ∧
        ∀ (i : Nat) (it e : List Nat), items[i]? = some it →
          upF it = .error e →
          outs[i]? = some (.failure it (keyOf it) e) := by
  intro items
  induction items with
  | nil =>
    intro _
    refine ⟨[], rfl, rfl, ?_⟩
    intro i it e hit _
    simp at hit
  | cons item rest ih =>
    intro hopen
    obtain ⟨n, hn⟩ := hopen item (List.mem_cons_self item rest)
    obtain ⟨outs0, hrun, hlen, hidx⟩ :=
      ih fun it hit => hopen it (List.mem_cons_of_mem item hit)
    cases hup : upF item with
    | ok u =>
      refine ⟨.success item (keyOf item) :: outs0, ?_, by simp [hlen], ?_⟩
      · simp only [runWorker, hn, hup, hrun, List.countP_cons]
        simp [upOk]
      · intro i it e hit hie
        cases i with
        | zero =>
          simp only [List.getElem?_cons_zero, Option.some_inj] at hit
          subst hit
          rw [hup] at hie
          exact absurd hie (by simp)
        | succ i =>
          simp only [List.getElem?_cons_succ] at hit ⊢
          exact hidx i it e hit hie
    | error e0 =>
      refine ⟨.failure item (keyOf item) e0 :: outs0, ?_, by simp [hlen], ?_⟩
      · simp only [runWorker, hn, hup, hrun, List.countP_cons]
        simp [upOk]
      · intro i it e hit hie
        cases i with
        | zero =>
          simp only [List.getElem?_cons_zero, Option.some_inj] at hit ⊢
          subst hit
          rw [hup] at hie
          simp only [Except.error.injEq] at hie
          rw [hie]
        | succ i =>
          simp only [List.getElem?_cons_succ] at hit ⊢
          exact hidx i it e hit hie

theorem runWorker_congr (openF openF2 : List Nat → Except (List Nat) Nat)
    (upF upF2 : List Nat → Except (List Nat) Unit)
    (keyOf : List Nat → List Nat) :
    ∀ items : List (List Nat), (∀ it ∈ items, openF2 it = openF it) →
      (∀ it ∈ items, upF2 it = upF it) →
      runWorker openF2 upF2 keyOf items = runWorker openF upF keyOf items := by
  intro items
  induction items with
  | nil => intro _ _; rfl
  | cons item rest ih =>
    intro hopen hup
    have h1 : openF2 item = openF item := hopen item (List.mem_cons_self item rest)
    have h2 : upF2 item = upF item := hup item (List.mem_cons_self item rest)
    have h3 := ih (fun it hit => hopen it (List.mem_cons_of_mem item hit))
      (fun it hit => hup it (List.mem_cons_of_mem item hit))
    simp only [runWorker, h1, h2, h3]

theorem runBatch_ok_total (openF : List Nat → Except (List Nat) Nat)
    (upF : List Nat → Except (List Nat) Unit) (keyOf : List Nat → List Nat) :
    ∀ (chunks : List (List (List Nat))) s f,
      runBatch openF upF keyOf chunks = .ok (s, f) →
      s + f = (chunks.map List.length).sum := by
  intro chunks
  induction chunks with
  | nil =>
    intro s f h
    simp only [runBatch, Except.ok.injEq, Prod.mk.injEq] at h
    obtain ⟨h1, h2⟩ := h
    subst h1; subst h2
    rfl
  | cons chunk rest ih =>
    intro s f h
    simp only [runBatch] at h
    cases hw : runWorker openF upF keyOf chunk with
    | error e => rw [hw] at h; exact absurd h (by simp)
    | ok triple =>
      obtain ⟨outs0, s0, f0⟩ := triple
      rw [hw] at h
      cases hrec : runBatch openF upF keyOf rest with
      | error e => rw [hrec] at h; exact absurd h (by simp)
      | ok p =>
        obtain ⟨s2, f2⟩ := p
        rw [hrec] at h
        simp only [Except.ok.injEq, Prod.mk.injEq] at h
        obtain ⟨h1, h2⟩ := h
        subst h1; subst h2
        have htot := (runWorker_ok_total openF upF keyOf chunk outs0 s0 f0 hw).1
        have hrest := ih s2 f2 hrec
        simp only [List.map_cons, List.sum_cons]
        omega

theorem runBatch_of_opens_ok (openF : List Nat → Except (List Nat) Nat)
    (upF : List Nat → Except (List Nat) Unit) (keyOf : List Nat → List Nat) :
    ∀ chunks : List (List (List Nat)),
      (∀ chunk ∈ chunks, ∀ it ∈ chunk, ∃ n, openF it = .ok n) →
      runBatch openF upF keyOf chunks
        = .ok (chunks.flatten.countP fun it => upOk (upF it),
            chunks.flatten.countP fun it => !upOk (upF it)) := by
  intro chunks
  induction chunks with
  | nil => intro _; rfl
  | cons chunk rest ih =>
    intro hopen
    obtain ⟨outs0, hw, -, -⟩ := runWorker_of_opens_ok openF upF keyOf chunk
      (hopen chunk (List.mem_cons_self chunk rest))
    have hrec := ih fun c hc => hopen c (List.mem_cons_of_mem chunk hc)
    simp only [runBatch, hw, hrec, List.flatten_cons, List.countP_append]

theorem runWorker_error_of_open_fails (openF : List Nat → Except (List Nat) Nat)
    (upF : List Nat → Except (List Nat) Unit) (keyOf : List Nat → List Nat) :
    ∀ items : List (List Nat), (∃ it ∈ items, ∃ e, openF it = .error e) →
      ∃ msg, runWorker openF upF keyOf items = .error msg := by
  intro items
  induction items with
  | nil =>
    intro h
    obtain ⟨it, hit, -⟩ := h
    simp at hit
  | cons item rest ih =>
    intro h
    cases hopen : openF item with
    | error e =>
      exact ⟨e, by simp only [runWorker, hopen]⟩
    | ok n =>
      obtain ⟨it, hit, e, he⟩ := h
      have hrest : ∃ it ∈ rest, ∃ e, openF it = .error e := by
        rcases List.mem_cons.mp hit with rfl | hmem
        · rw [hopen] at he
          exact absurd he (by simp)
        · exact ⟨it, hmem, e, he⟩
      obtain ⟨msg, hmsg⟩ := ih hrest
      cases hup : upF item with
      | ok u => exact ⟨msg, by simp only [runWorker, hopen, hup, hmsg]⟩
      | error e2 => exact ⟨msg, by simp only [runWorker, hopen, hup, hmsg]⟩

theorem runBatch_error_of_open_fails (openF : List Nat → Except (List Nat) Nat)
    (upF : List Nat → Except (List Nat) Unit) (keyOf : List Nat → List Nat) :
    ∀ chunks : List (List (List Nat)),
      (∃ chunk ∈ chunks, ∃ it ∈ chunk, ∃ e, openF it = .error e) →
      ∃ msg, runBatch openF upF keyOf chunks = .error msg := by
  intro chunks
  induction chunks with
  | nil =>
    intro h
    obtain ⟨c, hc, -⟩ := h
    simp at hc
  | cons chunk rest ih =>
    intro h
    obtain ⟨c, hc, it, hit, e, he⟩ := h
    rcases List.mem_cons.mp hc with rfl | hmem
    · obtain ⟨msg, hmsg⟩ := runWorker_error_of_open_fails openF upF keyOf c
        ⟨it, hit, e, he⟩
      exact ⟨msg, by simp only [runBatch, hmsg]⟩
    · cases hw : runWorker openF upF keyOf chunk with
      | error e2 => exact ⟨e2, by simp only [runBatch, hw]⟩
      | ok triple =>
        obtain ⟨outs0, s0, f0⟩ := triple
        obtain ⟨msg, hmsg⟩ := ih ⟨c, hmem, it, hit, e, he⟩
        exact ⟨msg, by simp only [runBatch, hw, hmsg]⟩

/-- C1: within a chunk whose files all open, an upload-client error on
task `i` increments the worker's local failure counter (the returned
failure count is the number of failing tasks), emits a Failure outcome
carrying the error's textual reason at position `i`, and does not
abort the chunk (every task yields an outcome, so the worker proceeds
to task `i + 1`); and the worker's result depends only on the oracles'
behaviour on its own chunk's items, so tasks in other chunks are
unaffected. -/
theorem C1_upload_failure_isolated (openF : List Nat → Except (List Nat) Nat)
    (upF : List Nat → Except (List Nat) Unit) (keyOf : List Nat → List Nat)
    (items : List (List Nat))
    (hopen : ∀ it ∈ items, ∃ n, openF it = .ok n) :
    (∃ outs, runWorker openF upF keyOf items
        = .ok (outs, items.countP fun it => upOk (upF it),
            items.countP fun it => !upOk (upF it)) ∧
      outs.length = items.length ∧
      ∀ (i : Nat) (it e : List Nat), items[i]? = some it →
        upF it = .error e →
        outs[i]? = some (.failure it (keyOf it) e)) ∧
    (∀ (openF2 : List Nat → Except (List Nat) Nat)
        (upF2 : List Nat → Except (List Nat) Unit),
      (∀ it ∈ items, openF2 it = openF it) →
      (∀ it ∈ items, upF2 it = upF it) →
      runWorker openF2 upF2 keyOf items = runWorker openF upF keyOf items) :=
  ⟨runWorker_of_opens_ok openF upF keyOf items hopen,
    fun openF2 upF2 h1 h2 => runWorker_congr openF openF2 upF upF2 keyOf items h1 h2⟩

/-- Concrete filesystem and upload-client oracles for the worked
examples below: two files under root `/d`, a client that rejects
`/d/b`, and a filesystem on which `/d/b` cannot be opened. -/
def okOpen : List Nat → Except (List Nat) Nat := fun _ => .ok 1

/-- Upload client that fails on `/d/b` with reason `quota`. -/
def failUpOnB : List Nat → Except (List Nat) Unit := fun it =>
  if it = codes (r"/d/b") then .error (codes (r"quota")) else .ok ()

/-- Filesystem on which opening `/d/b` fails. -/
def failOpenOnB : List Nat → Except (List Nat) Nat := fun it =>
  if it = codes (r"/d/b") then .error (codes (r"permission denied")) else .ok 1

/-- The two discovered files of the worked examples. -/
def twoFiles : List (List Nat) := [codes (r"/d/a"), codes (r"/d/b")]

theorem C1_upload_failure_isolated_witness :
    (∃ outs, runWorker okOpen failUpOnB (fun it => it) twoFiles
        = .ok (outs, twoFiles.countP fun it => upOk (failUpOnB it),
            twoFiles.countP fun it => !upOk (failUpOnB it)) ∧
      outs.length = twoFiles.length ∧
      ∀ (i : Nat) (it e : List Nat), twoFiles[i]? = some it →
        failUpOnB it = .error e →
        outs[i]? = some (.failure it ((fun it => it) it) e)) ∧
    (∀ (openF2 : List Nat → Except (List Nat) Nat)
        (upF2 : List Nat → Except (List Nat) Unit),
      (∀ it ∈ twoFiles, openF2 it = okOpen it) →
      (∀ it ∈ twoFiles, upF2 it = failUpOnB it) →
      runWorker openF2 upF2 (fun it => it) twoFiles
        = runWorker okOpen failUpOnB (fun it => it) twoFiles) :=
  C1_upload_failure_isolated okOpen failUpOnB (fun it => it) twoFiles
    (fun _ _ => ⟨1, rfl⟩)

/-- Unfolding of `runDirUpload` once the directory is known non-empty
and the partition is known. -/
theorem runDirUpload_nonempty (openF : List Nat → Except (List Nat) Nat)
    (upF : List Nat → Except (List Nat) Unit) (destDir : Option (List Nat))
    (filePath : List Nat) (files : List (List Nat))
    (chunks : List (List (List Nat))) (hne : ¬files.isEmpty = true)
    (hsplit : split_into_chunks files 30 = some chunks) :
    runDirUpload openF upF destDir filePath files
      = match runBatch openF upF
          (fun item => deriveKeyDir destDir (rustFileStem filePath) filePath item)
          chunks with
        | .error e => .panicked e
        | .ok (s, f) => .completed s f := by
  unfold runDirUpload
  rw [if_neg hne, hsplit]

/-- C5: whenever the directory batch completes and reports a tally,
`success_count + failure_count` equals the number of discovered files:
the aggregator joins every dispatched worker, sums the per-chunk
pairs, and each task increments exactly one of the two counters. -/
theorem C5_tally_total (openF : List Nat → Except (List Nat) Nat)
    (upF : List Nat → Except (List Nat) Unit) (destDir : Option (List Nat))
    (filePath : List Nat) (files : List (List Nat)) (s f : Nat)
    (h : runDirUpload openF upF destDir filePath files = .completed s f) :
    s + f = files.length := by
  by_cases hemp : files.isEmpty
  · unfold runDirUpload at h
    rw [if_pos hemp] at h
    exact absurd h (by simp)
  · cases hsplit : split_into_chunks files 30 with
    | none =>
      have hne : files ≠ [] := by
        intro hnil
        rw [hnil] at hemp
        exact hemp rfl
      rw [split_into_chunks_some files 30 hne (by omega)] at hsplit
      exact absurd hsplit (by simp)
    | some chunks =>
      rw [runDirUpload_nonempty openF upF destDir filePath files chunks hemp
        hsplit] at h
      cases hbatch : runBatch openF upF
          (fun item => deriveKeyDir destDir (rustFileStem filePath) filePath item)
          chunks with
      | error e => rw [hbatch] at h; exact absurd h (by simp)
      | ok p =>
        obtain ⟨s0, f0⟩ := p
        rw [hbatch] at h
        simp only [BatchResult.completed.injEq] at h
        obtain ⟨h1, h2⟩ := h
        subst h1; subst h2
        obtain ⟨-, hq1, hcs⟩ := split_into_chunks_eq files 30 chunks hsplit
        have hflat : chunks.flatten = files := by
          rw [hcs]
          exact rustChunks_flatten' hq1 files
        calc s0 + f0
            = (chunks.map List.length).sum :=
              runBatch_ok_total _ _ _ chunks s0 f0 hbatch
          _ = chunks.flatten.length := (List.length_flatten chunks).symm
          _ = files.length := by rw [hflat]

theorem C5_tally_total_witness : 1 + 1 = twoFiles.length :=
  C5_tally_total okOpen failUpOnB none (codes (r"/d")) twoFiles 1 1 (by decide)

/-- C2 as stated is false: a file-open (or metadata) failure is
`unwrap`ped inside the worker (main.rs lines 219–220), the spawned
task panics, and `handle.await.unwrap()` (line 284) panics `main` — a
two-file batch whose second file cannot be opened aborts instead of
completing with `successes = 1, failures = 1`. -/
theorem C2_counterexample :
    runDirUpload failOpenOnB (fun _ => .ok ()) none (codes (r"/d")) twoFiles
        = .panicked (codes (r"permission denied")) ∧
      runDirUpload failOpenOnB (fun _ => .ok ()) none (codes (r"/d")) twoFiles
        ≠ .completed 1 1 := by decide

/-- C2 (amended): upload-client failures are the isolated ones — when
every file opens, the batch completes, the tally counts each file's
upload result exactly once (so one failing upload among `n` gives
`n - 1` successes and `1` failure, with the error text in that file's
outcome) — but a file-open or metadata failure panics its worker and
aborts the whole batch at join time. -/
theorem C2_per_file_isolation :
    (∀ (openF : List Nat → Except (List Nat) Nat)
        (upF : List Nat → Except (List Nat) Unit)
        (destDir : Option (List Nat)) (filePath : List Nat)
        (files : List (List Nat)), files ≠ [] →
      (∀ it ∈ files, ∃ n, openF it = .ok n) →
      runDirUpload openF upF destDir filePath files
        = .completed (files.countP fun it => upOk (upF it))
            (files.countP fun it => !upOk (upF it))) ∧
    (∀ (openF : List Nat → Except (List Nat) Nat)
        (upF : List Nat → Except (List Nat) Unit)
        (destDir : Option (List Nat)) (filePath : List Nat)
        (files : List (List Nat)),
      (∃ it ∈ files, ∃ e, openF it = .error e) →
      ∃ msg, runDirUpload openF upF destDir filePath files = .panicked msg) := by
  constructor
  · intro openF upF destDir filePath files hne hopen
    have hsplit := split_into_chunks_some files 30 hne (by omega)
    have hq1 : 1 ≤ (files.length + 30 - 1) / 30 := by
      have := List.length_pos.mpr hne
      omega
    have hflat : (rustChunks ((files.length + 30 - 1) / 30) files).flatten
        = files := rustChunks_flatten' hq1 files
    have hopen2 : ∀ chunk ∈ rustChunks ((files.length + 30 - 1) / 30) files,
        ∀ it ∈ chunk, ∃ n, openF it = .ok n := by
      intro chunk hchunk it hit
      exact hopen it
        (by rw [← hflat]; exact List.mem_flatten.mpr ⟨chunk, hchunk, hit⟩)
    rw [runDirUpload_nonempty openF upF destDir filePath files _
        (by simp [hne]) hsplit,
      runBatch_of_opens_ok _ _ _ _ hopen2, hflat]
  · intro openF upF destDir filePath files hfail
    have hne : files ≠ [] := by
      intro hnil
      obtain ⟨it, hit, -⟩ := hfail
      rw [hnil] at hit
      simp at hit
    have hsplit := split_into_chunks_some files 30 hne (by omega)
    have hq1 : 1 ≤ (files.length + 30 - 1) / 30 := by
      have := List.length_pos.mpr hne
      omega
    have hflat : (rustChunks ((files.length + 30 - 1) / 30) files).flatten
        = files := rustChunks_flatten' hq1 files
    obtain ⟨it, hit, e, he⟩ := hfail
    obtain ⟨chunk, hchunk, hitc⟩ := List.mem_flatten.mp (by rw [hflat]; exact hit)
    obtain ⟨msg, hmsg⟩ := runBatch_error_of_open_fails openF upF
      (fun item => deriveKeyDir destDir (rustFileStem filePath) filePath item)
      (rustChunks ((files.length + 30 - 1) / 30) files)
      ⟨chunk, hchunk, it, hitc, e, he⟩
    refine ⟨msg, ?_⟩
    rw [runDirUpload_nonempty openF upF destDir filePath files _
        (by simp [hne]) hsplit,
      hmsg]

theorem C2_per_file_isolation_witness :
    runDirUpload okOpen failUpOnB none (codes (r"/d")) twoFiles
        = .completed (twoFiles.countP fun it => upOk (failUpOnB it))
          (twoFiles.countP fun it => !upOk (failUpOnB it)) ∧
      ∃ msg, runDirUpload failOpenOnB (fun _ => .ok ()) none (codes (r"/d"))
        twoFiles = .panicked msg :=
  ⟨C2_per_file_isolation.1 okOpen failUpOnB none (codes (r"/d")) twoFiles
      (by decide) (fun _ _ => ⟨1, rfl⟩),
    C2_per_file_isolation.2 failOpenOnB (fun _ => .ok ()) none (codes (r"/d"))
      twoFiles ⟨codes (r"/d/b"), by decide, codes (r"permission denied"), rfl⟩⟩

/-- C9: an empty enumeration terminates the directory batch with the
empty-directory error and `exit(1)` before any upload attempt — for
every behaviour of the filesystem and upload oracles the result is
`emptyDir`, so no chunk is created and no worker is dispatched. -/
theorem C9_empty_dir_aborts (openF : List Nat → Except (List Nat) Nat)
    (upF : List Nat → Except (List Nat) Unit) (destDir : Option (List Nat))
    (filePath : List Nat) :
    runDirUpload openF upF destDir filePath [] = .emptyDir := rfl

end QiniuUpload
